import Mathlib

/-!
Verification of the coordinate-ascent update kernel of the varbvs repository
(`src/varbvs-R/src/varbvsnormupdate_rcpp.cpp`).

The two exported C++ functions are embedded shallowly over the real numbers:

* `sigmoidcpp` embeds the C++ `sigmoidcpp` (lines 11-13):
  `return (1 / (1 + exp(-x)));`

* `varbvsnormupdate_cpp` embeds the C++ `varbvsnormupdate_cpp` (lines 36-58).
  The design matrix `X` is accessed in the source only through `X.column(j)`,
  so it is embedded as the list of its `p` columns, each a list of `n` reals.
  Vectors are lists of reals; element reads use `List.getD` (default 0); the
  source performs no bounds checks of its own.

  Rcpp calling convention, which the embedding reproduces faithfully:
  - `alpha` and `mu` are `NumericVector&`; the element writes `mu[j] = ...`
    and `alpha[j] = ...` go through the shared R storage, so the caller sees
    them on return.
  - `Xr` is declared `NumericVector Xr` (by value, no `&`).  The statement
    `Xr = Xr + (alpha[j]*mu[j] - r) * X.column(j);` is an Rcpp vector
    assignment: the right-hand side sugar expression allocates a fresh
    vector, and `operator=` rebinds the local proxy `Xr` to that fresh
    vector; the caller's vector is never written (rebinding, not in-place
    mutation, is Rcpp's assignment semantics for `Vector`).  Hence inside
    the loop later iterations see the updated `Xr` (the rebound local),
    while on exit the caller still holds exactly the vector supplied at
    entry.  `varbvsnormupdate_loop` models the local sequential loop state;
    `varbvsnormupdate_cpp` models the caller-visible effect of one call.
-/

noncomputable section

/-- Embedding of `sigmoidcpp` (source lines 11-13): `1 / (1 + exp(-x))`. -/
def sigmoidcpp (x : ℝ) : ℝ := 1 / (1 + Real.exp (-x))

/-- Sum of products of two vectors: the meaning of the Rcpp sugar
`sum(X.column(j) * Xr)` on source line 50 (elementwise product, then sum). -/
def dotprod (u v : List ℝ) : ℝ := (List.zipWith (fun a b => a * b) u v).sum

/-- The variational posterior variance of source line 46:
`double s = sa * sigma / (sa * d[j] + 1);`. -/
def postVar (sigma sa dj : ℝ) : ℝ := sa * sigma / (sa * dj + 1)

/-- The three vectors the pass mutates: `alpha`, `mu` (shared with the
caller) and the loop-local `Xr`. -/
structure NormState where
  alpha : List ℝ
  mu : List ℝ
  Xr : List ℝ

/-- One iteration of the `for` loop of `varbvsnormupdate_cpp`
(source lines 40-57), updating coordinate `j`:

    double s = sa * sigma / (sa * d[j] + 1);
    double r = alpha[j] * mu[j];
    mu[j] = s / sigma * (xy[j] + d[j] * r - sum(X.column(j) * Xr));
    alpha[j] = sigmoidcpp(logodds[j] + (log(s / (sa * sigma)) + pow(mu[j], 2) / s) / 2);
    Xr = Xr + (alpha[j] * mu[j] - r) * X.column(j);

The `alpha[j]` update reads the just-written `mu[j]`, and the `Xr` update
reads the just-written `alpha[j]` and `mu[j]`, exactly as in the source. -/
def updateStep (X : List (List ℝ)) (sigma sa : ℝ) (logodds xy d : List ℝ)
    (st : NormState) (j : ℕ) : NormState :=
  let s := postVar sigma sa (d.getD j 0)
  let r := st.alpha.getD j 0 * st.mu.getD j 0
  let muj := s / sigma * (xy.getD j 0 + d.getD j 0 * r - dotprod (X.getD j []) st.Xr)
  let alphaj := sigmoidcpp (logodds.getD j 0 + (Real.log (s / (sa * sigma)) + muj ^ 2 / s) / 2)
  ⟨st.alpha.set j alphaj, st.mu.set j muj,
    List.zipWith (fun a b => a + b) st.Xr
      (List.map (fun x => (alphaj * muj - r) * x) (X.getD j []))⟩

/-- The `for (int index = 0; index < i.size(); index++)` loop of
`varbvsnormupdate_cpp` (source lines 40-57): a strictly sequential fold of
`updateStep` over the update order `i`, carrying `alpha`, `mu` and the
loop-local (rebound) `Xr`. -/
def varbvsnormupdate_loop (X : List (List ℝ)) (sigma sa : ℝ) (logodds xy d : List ℝ)
    (st : NormState) (order : List ℕ) : NormState :=
  order.foldl (updateStep X sigma sa logodds xy d) st

/-- Caller-visible effect of one call to `varbvsnormupdate_cpp`
(source lines 36-58).  `alpha` and `mu` are `NumericVector&` and are
updated element-wise through shared storage, so the caller receives the
loop's final `alpha` and `mu`.  `Xr` is passed by value and only ever
reassigned (`Xr = Xr + ...` rebinds the local proxy to a freshly allocated
vector), so the caller's `Xr` is exactly the vector supplied at entry. -/
def varbvsnormupdate_cpp (X : List (List ℝ)) (sigma sa : ℝ)
    (logodds xy d alpha mu Xr : List ℝ) (order : List ℕ) : NormState :=
  let res := varbvsnormupdate_loop X sigma sa logodds xy d ⟨alpha, mu, Xr⟩ order
  ⟨res.alpha, res.mu, Xr⟩

/-- Validity of a call as listed by the spec (§4.2 preconditions, claim C1):
positive variances, all per-predictor vectors of length `p`, `Xr` of length
`n`, `X` an `n × p` matrix stored as `p` columns of length `n`, and every
update index in `[0, p)`. -/
def WellFormedInput (X : List (List ℝ)) (sigma sa : ℝ)
    (logodds xy d alpha mu Xr : List ℝ) (n p : ℕ) (order : List ℕ) : Prop :=
  0 < sigma ∧ 0 < sa ∧ X.length = p ∧ (∀ c ∈ X, c.length = n) ∧
    logodds.length = p ∧ xy.length = p ∧ d.length = p ∧ alpha.length = p ∧
    mu.length = p ∧ Xr.length = n ∧ ∀ j ∈ order, j < p

/-- The data-model meaning of `d` (spec §3 and the source doc comment
`d = diag(t(X) %*% X)`): `d_j` is the sum of squares of column `j`. -/
def GramDiagonal (X : List (List ℝ)) (d : List ℝ) : Prop :=
  ∀ j, j < X.length → d.getD j 0 = dotprod (X.getD j []) (X.getD j [])

/-- Modelled from the spec: the fitted value `DesignMatrix · (alpha ⊙ mu)`
(spec §3, PosteriorState invariant), written over the column view of `X`:
entry `k` is the sum over columns `j` of `alpha_j * mu_j * X[k][j]`. -/
def fittedValue (X : List (List ℝ)) (alpha mu : List ℝ) (n : ℕ) : List ℝ :=
  (List.range n).map (fun k =>
    ((List.range X.length).map
      (fun j => alpha.getD j 0 * mu.getD j 0 * (X.getD j []).getD k 0)).sum)

/-! ### Helper lemmas -/

lemma sigmoidcpp_pos (x : ℝ) : 0 < sigmoidcpp x := by
  unfold sigmoidcpp; positivity

lemma sigmoidcpp_lt_one (x : ℝ) : sigmoidcpp x < 1 := by
  unfold sigmoidcpp
  have h1 : (0:ℝ) < 1 + Real.exp (-x) := by positivity
  rw [div_lt_one h1]
  have := Real.exp_pos (-x)
  linarith

lemma sigmoidcpp_strictMono : StrictMono sigmoidcpp := by
  intro a b hab
  unfold sigmoidcpp
  have h1 : (0:ℝ) < 1 + Real.exp (-a) := by positivity
  have h2 : (0:ℝ) < 1 + Real.exp (-b) := by positivity
  rw [div_lt_div_iff₀ h1 h2]
  have := Real.exp_lt_exp.mpr (neg_lt_neg hab)
  linarith

lemma getD_set_self (l : List ℝ) (j : ℕ) (a : ℝ) (h : j < l.length) :
    (l.set j a).getD j 0 = a := by
  rw [List.getD_eq_getElem?_getD, List.getElem?_set_self h]; rfl

/-- Dot product against an elementwise update `v + c * u` of the second
argument. -/
lemma dotprod_add_smul (c : ℝ) : ∀ (u v : List ℝ), u.length ≤ v.length →
    dotprod u (List.zipWith (fun a b => a + b) v (List.map (fun x => c * x) u)) =
      dotprod u v + c * dotprod u u := by
  intro u
  induction u with
  | nil => intro v _; simp [dotprod]
  | cons a u ih =>
    intro v hv
    cases v with
    | nil => simp at hv
    | cons b v =>
      simp only [List.map_cons, List.zipWith_cons_cons, dotprod, List.sum_cons] at *
      have := ih v (by simpa using hv)
      simp only [dotprod] at this
      rw [this]
      ring

lemma zipWith_add_map_cancel : ∀ (v w : List ℝ), v.length ≤ w.length →
    List.zipWith (fun a b => a + b) v (List.map (fun x => (0:ℝ) * x) w) = v := by
  intro v
  induction v with
  | nil => intro w _; simp
  | cons a v ih =>
    intro w hw
    cases w with
    | nil => simp at hw
    | cons b w =>
      simp only [List.map_cons, List.zipWith_cons_cons]
      rw [ih w (by simpa using hw)]
      norm_num

/-- A single-coordinate update is idempotent (on the whole state, local `Xr`
included) whenever `d_j` really is the sum of squares of column `j`: the
`Xr` increment of the first update exactly cancels against the recomputed
`d_j * r_j` term of the second. -/
lemma updateStep_idem (X : List (List ℝ)) (sigma sa : ℝ) (logodds xy d : List ℝ)
    (st : NormState) (j : ℕ)
    (ha : j < st.alpha.length) (hm : j < st.mu.length)
    (hlen : (X.getD j []).length = st.Xr.length)
    (hd : d.getD j 0 = dotprod (X.getD j []) (X.getD j [])) :
    updateStep X sigma sa logodds xy d (updateStep X sigma sa logodds xy d st j) j =
      updateStep X sigma sa logodds xy d st j := by
  obtain ⟨A, M, R⟩ := st
  simp only at ha hm hlen
  dsimp only [updateStep]
  set u := X.getD j [] with hu
  set s := postVar sigma sa (d.getD j 0) with hs
  set r := A.getD j 0 * M.getD j 0 with hr
  set muj := s / sigma * (xy.getD j 0 + d.getD j 0 * r - dotprod u R) with hmuj
  set alphaj :=
    sigmoidcpp (logodds.getD j 0 + (Real.log (s / (sa * sigma)) + muj ^ 2 / s) / 2) with halphaj
  rw [getD_set_self A j _ ha, getD_set_self M j _ hm]
  rw [dotprod_add_smul _ _ _ (le_of_eq hlen)]
  have hmu2 : s / sigma * (xy.getD j 0 + d.getD j 0 * (alphaj * muj) -
      (dotprod u R + (alphaj * muj - r) * dotprod u u)) = muj := by
    rw [← hd, hmuj]; ring
  rw [hmu2, ← halphaj, List.set_set, List.set_set]
  have hc : (fun x => (alphaj * muj - alphaj * muj) * x) = (fun x : ℝ => (0:ℝ) * x) := by
    funext x; ring
  rw [hc, zipWith_add_map_cancel _ _ (by simp [List.length_zipWith])]

end

noncomputable section

/-! ### Numeric bounds for the worked scenario

In the worked scenario (n = 1, p = 1, X = [[2]], sigma = sa = 1,
logodds = [0], xy = [4], d = [4], zero-initialized state, order [0]) the
new inclusion probability is `sigmoidcpp (8/5 - log 5 / 2)`.  The lemmas
below pin this value numerically: `exp (-(4/5))` by the Taylor series with
the Mathlib remainder bound, `exp (log 5 / 2)` as the positive square root
of 5, and their combination `exp (-(8/5 - log 5 / 2))`. -/

lemma exp_neg_fourfifths_bounds :
    (0.4493289 : ℝ) < Real.exp (-(4/5)) ∧ Real.exp (-(4/5)) < (0.4493290 : ℝ) := by
  have h0 : |(-(4/5) : ℝ)| ≤ 1 := by rw [abs_neg, abs_of_nonneg] <;> norm_num
  have h1 := @Real.exp_bound (-(4/5)) h0 10 (by norm_num)
  rw [abs_neg, abs_of_nonneg (by norm_num : (0:ℝ) ≤ 4/5)] at h1
  simp only [Finset.sum_range_succ, Finset.sum_range_zero, Nat.factorial] at h1
  norm_num at h1
  rw [abs_le] at h1
  constructor <;> nlinarith [h1.1, h1.2]

lemma exp_half_log_five_sq :
    Real.exp (Real.log 5 / 2) * Real.exp (Real.log 5 / 2) = 5 := by
  rw [← Real.exp_add, add_halves, Real.exp_log]
  norm_num

lemma exp_half_log_five_bounds :
    (2.2360679 : ℝ) < Real.exp (Real.log 5 / 2) ∧
      Real.exp (Real.log 5 / 2) < (2.2360680 : ℝ) := by
  have hp := Real.exp_pos (Real.log 5 / 2)
  have hsq := exp_half_log_five_sq
  constructor <;> nlinarith [hp, hsq]

lemma exp_arg_split :
    Real.exp (-(8/5 - Real.log 5 / 2)) =
      Real.exp (Real.log 5 / 2) * (Real.exp (-(4/5)) * Real.exp (-(4/5))) := by
  rw [← Real.exp_add, ← Real.exp_add]
  congr 1
  ring

lemma u_bounds :
    (0.451454 : ℝ) < Real.exp (-(8/5 - Real.log 5 / 2)) ∧
      Real.exp (-(8/5 - Real.log 5 / 2)) < (0.451455 : ℝ) := by
  obtain ⟨hs1, hs2⟩ := exp_neg_fourfifths_bounds
  obtain ⟨hv1, hv2⟩ := exp_half_log_five_bounds
  rw [exp_arg_split]
  have hspos : (0:ℝ) < Real.exp (-(4/5)) := Real.exp_pos _
  have hss_lo : (0.20189645 : ℝ) < Real.exp (-(4/5)) * Real.exp (-(4/5)) := by
    nlinarith [sq_nonneg (Real.exp (-(4/5)) - 0.4493289)]
  have hss_hi : Real.exp (-(4/5)) * Real.exp (-(4/5)) < (0.20189656 : ℝ) := by
    nlinarith [sq_nonneg (Real.exp (-(4/5)) - 0.4493290)]
  constructor
  · nlinarith [mul_pos (sub_pos.mpr hv1) (sub_pos.mpr hss_lo)]
  · nlinarith [mul_pos (sub_pos.mpr hv2) (sub_pos.mpr hss_hi)]

/-- The updated inclusion probability of the worked scenario lies in
`(0.688950, 0.688980)`; its true value is `0.6889642...`. -/
lemma sigA_bounds :
    (0.688950 : ℝ) < sigmoidcpp (8/5 - Real.log 5 / 2) ∧
      sigmoidcpp (8/5 - Real.log 5 / 2) < (0.688980 : ℝ) := by
  obtain ⟨hu1, hu2⟩ := u_bounds
  unfold sigmoidcpp
  have hpos : (0:ℝ) < 1 + Real.exp (-(8/5 - Real.log 5 / 2)) := by positivity
  constructor
  · rw [lt_div_iff₀ hpos]; nlinarith [hu2]
  · rw [div_lt_iff₀ hpos]; nlinarith [hu1]

/-! ### Evaluation of the worked scenario -/

/-- Loop-local state after the single step of the worked scenario:
`s = 1/5`, `r = 0`, residual correlation `4`, `mu = [4/5]`,
`alpha = [sigmoidcpp (8/5 - log 5 / 2)]`, and the rebound local
`Xr = [alpha_0 * mu_0 * 2]`. -/
lemma workedLoop_eval : varbvsnormupdate_loop [[2]] 1 1 [0] [4] [4] ⟨[0], [0], [0]⟩ [0] =
    ⟨[sigmoidcpp (8/5 - Real.log 5 / 2)], [4/5],
      [sigmoidcpp (8/5 - Real.log 5 / 2) * (4/5) * 2]⟩ := by
  simp only [varbvsnormupdate_loop, List.foldl_cons, List.foldl_nil, updateStep, dotprod, postVar,
    List.getD, List.zipWith_cons_cons, List.map_cons, List.map_nil, List.zipWith_nil_right]
  norm_num
  rw [show ((Real.log (1/5) + 16/5)/2 : ℝ) = 8/5 - Real.log 5/2 from by
    rw [one_div, Real.log_inv]; ring]

/-- Caller-visible result of the worked scenario: `alpha` and `mu` are
written back, the caller's `Xr` is still the `[0]` supplied at entry. -/
lemma workedCaller_eval : varbvsnormupdate_cpp [[2]] 1 1 [0] [4] [4] [0] [0] [0] [0] =
    ⟨[sigmoidcpp (8/5 - Real.log 5 / 2)], [4/5], [0]⟩ := by
  simp only [varbvsnormupdate_cpp, workedLoop_eval]

end

noncomputable section

/-! ### Claims -/

/-- Claim C1 (code_bug evidence).  On the valid worked-scenario input, after
one call to `varbvsnormupdate_cpp`: (1) the caller-supplied `Xr` is still
`[0]`, exactly as at entry; (2) the loop-local `Xr` does equal
`DesignMatrix · (alpha ⊙ mu)` for the updated `alpha`, `mu`; but (3) the
caller-visible `Xr` does not — the per-step `Xr` increment of step 6 is a
rebinding of a by-value `NumericVector` and is never visible to the caller,
contradicting the claim. -/
theorem claim_C1 :
    (varbvsnormupdate_cpp [[2]] 1 1 [0] [4] [4] [0] [0] [0] [0]).Xr = [0] ∧
    (varbvsnormupdate_loop [[2]] 1 1 [0] [4] [4] ⟨[0], [0], [0]⟩ [0]).Xr =
      fittedValue [[2]] (varbvsnormupdate_cpp [[2]] 1 1 [0] [4] [4] [0] [0] [0] [0]).alpha
        (varbvsnormupdate_cpp [[2]] 1 1 [0] [4] [4] [0] [0] [0] [0]).mu 1 ∧
    (varbvsnormupdate_cpp [[2]] 1 1 [0] [4] [4] [0] [0] [0] [0]).Xr ≠
      fittedValue [[2]] (varbvsnormupdate_cpp [[2]] 1 1 [0] [4] [4] [0] [0] [0] [0]).alpha
        (varbvsnormupdate_cpp [[2]] 1 1 [0] [4] [4] [0] [0] [0] [0]).mu 1 := by
  have hfv : fittedValue [[2]] [sigmoidcpp (8/5 - Real.log 5 / 2)] [4/5] 1 =
      [sigmoidcpp (8/5 - Real.log 5 / 2) * (4/5) * 2] := by
    simp [fittedValue, List.range_succ]
  refine ⟨?_, ?_, ?_⟩
  · rw [workedCaller_eval]
  · rw [workedCaller_eval, workedLoop_eval]
    exact hfv.symm
  · rw [workedCaller_eval]
    intro h
    have h2 : ([0]:List ℝ) = [sigmoidcpp (8/5 - Real.log 5 / 2) * (4/5) * 2] := h.trans hfv
    have hp := sigmoidcpp_pos (8/5 - Real.log 5 / 2)
    simp only [List.cons.injEq, and_true] at h2
    nlinarith [hp, h2]

/-- Claim C2: for every state reached after a prefix of the update order,
the next step computes `s_j`, captures `r_j` from the current state, writes
`mu_j` from the residual correlation against the current (loop-local) `Xr`,
writes `alpha_j` through the sigmoid using the just-written `mu_j`, and
adds `(alpha_j * mu_j - r_j) * column_j` to the `Xr` seen by all subsequent
steps. -/
theorem claim_C2 (X : List (List ℝ)) (sigma sa : ℝ) (logodds xy d : List ℝ)
    (st : NormState) (pre rest : List ℕ) (j : ℕ) :
    varbvsnormupdate_loop X sigma sa logodds xy d st (pre ++ j :: rest) =
      (let before := varbvsnormupdate_loop X sigma sa logodds xy d st pre
       let s := postVar sigma sa (d.getD j 0)
       let r := before.alpha.getD j 0 * before.mu.getD j 0
       let muj := s / sigma * (xy.getD j 0 + d.getD j 0 * r - dotprod (X.getD j []) before.Xr)
       let alphaj := sigmoidcpp (logodds.getD j 0 + (Real.log (s / (sa * sigma)) + muj ^ 2 / s) / 2)
       varbvsnormupdate_loop X sigma sa logodds xy d
         ⟨before.alpha.set j alphaj, before.mu.set j muj,
          List.zipWith (fun a b => a + b) before.Xr
            (List.map (fun x => (alphaj * muj - r) * x) (X.getD j []))⟩ rest) := by
  simp only [varbvsnormupdate_loop, List.foldl_append, List.foldl_cons]
  rfl

/-- Claim C4 counterexample.  On the worked-scenario input the claim's
expected values fail: the new `alpha_0` is not within half of 10^-4 of
0.6892 (its true value is 0.6889642...), and the caller-visible `Xr_0` is
not within half of 10^-4 of 1.1027 (it is 0, since the `Xr` update never
reaches the caller). -/
theorem claim_C4_cex :
    ¬ (|(varbvsnormupdate_cpp [[2]] 1 1 [0] [4] [4] [0] [0] [0] [0]).alpha.getD 0 0
        - 0.6892| ≤ 5/100000) ∧
    ¬ (|(varbvsnormupdate_cpp [[2]] 1 1 [0] [4] [4] [0] [0] [0] [0]).Xr.getD 0 0
        - 1.1027| ≤ 5/100000) := by
  simp only [workedCaller_eval]
  constructor
  · intro h
    rw [abs_le] at h
    have h2 := sigA_bounds.2
    simp only [List.getD_cons_zero] at h
    linarith [h.1]
  · intro h
    rw [abs_le] at h
    simp only [List.getD_cons_zero] at h
    norm_num at h

/-- Claim C4 (amended): on the worked-scenario input, `s = 1/5`, the
residual correlation is `4` (with `r = 0`), `mu` becomes `[4/5]`,
`alpha_0` becomes `sigmoidcpp (8/5 - log 5 / 2) = 0.68896...` (within half
of 10^-4 of 0.68896, not of the claimed 0.6892), the loop-local `Xr_0`
becomes `1.10234...` (within half of 10^-4 of 1.10234, not of the claimed
1.1027), and the caller-visible `Xr` remains `[0]`. -/
theorem claim_C4 :
    postVar 1 1 4 = 1/5 ∧
    (4 : ℝ) + 4 * 0 - dotprod [2] [0] = 4 ∧
    (varbvsnormupdate_cpp [[2]] 1 1 [0] [4] [4] [0] [0] [0] [0]).mu = [4/5] ∧
    |(varbvsnormupdate_cpp [[2]] 1 1 [0] [4] [4] [0] [0] [0] [0]).alpha.getD 0 0
      - 0.68896| ≤ 5/100000 ∧
    (varbvsnormupdate_cpp [[2]] 1 1 [0] [4] [4] [0] [0] [0] [0]).Xr = [0] ∧
    |(varbvsnormupdate_loop [[2]] 1 1 [0] [4] [4] ⟨[0], [0], [0]⟩ [0]).Xr.getD 0 0
      - 1.10234| ≤ 5/100000 := by
  obtain ⟨hA1, hA2⟩ := sigA_bounds
  refine ⟨by unfold postVar; norm_num, by simp [dotprod], ?_, ?_, ?_, ?_⟩
  · simp only [workedCaller_eval]
  · simp only [workedCaller_eval, List.getD_cons_zero]
    rw [abs_le]
    constructor <;> linarith
  · simp only [workedCaller_eval]
  · simp only [workedLoop_eval, List.getD_cons_zero]
    rw [abs_le]
    constructor <;> linarith

/-- Claim C5: `sigmoidcpp` equals `1 / (1 + exp (-x))`, lies strictly
between 0 and 1, is strictly increasing, takes value 1/2 at 0, and
satisfies the symmetry `sigmoidcpp x + sigmoidcpp (-x) = 1`. -/
theorem claim_C5 :
    StrictMono sigmoidcpp ∧ sigmoidcpp 0 = 1/2 ∧
    ∀ x : ℝ, sigmoidcpp x = 1 / (1 + Real.exp (-x)) ∧
      0 < sigmoidcpp x ∧ sigmoidcpp x < 1 ∧ sigmoidcpp x + sigmoidcpp (-x) = 1 := by
  refine ⟨sigmoidcpp_strictMono, by unfold sigmoidcpp; norm_num,
    fun x => ⟨rfl, sigmoidcpp_pos x, sigmoidcpp_lt_one x, ?_⟩⟩
  unfold sigmoidcpp
  rw [neg_neg]
  have h1 : (0:ℝ) < 1 + Real.exp (-x) := by positivity
  have h2 : (0:ℝ) < 1 + Real.exp x := by positivity
  have hx : Real.exp (-x) * Real.exp x = 1 := by rw [← Real.exp_add]; norm_num
  field_simp
  nlinarith [hx]

/-- Claim C9: with an empty update order the call is a no-op — the loop
body never runs and the caller receives `alpha`, `mu`, `Xr` exactly as
supplied. -/
theorem claim_C9 (X : List (List ℝ)) (sigma sa : ℝ)
    (logodds xy d alpha mu Xr : List ℝ) :
    varbvsnormupdate_cpp X sigma sa logodds xy d alpha mu Xr [] = ⟨alpha, mu, Xr⟩ := rfl

end

noncomputable section

/-! ### Remaining claims -/

/-- Helper for claim C3: with any nonzero `sigma` (in particular negative
ones), the call on this shape-valid instance runs the update and overwrites
`mu` with `[1]`. -/
lemma invalidSigma_eval (sigma : ℝ) (hne : sigma ≠ 0) :
    (varbvsnormupdate_cpp [[0]] sigma 1 [0] [1] [0] [0] [0] [0] [0]).mu = [1] := by
  simp only [varbvsnormupdate_cpp, varbvsnormupdate_loop, List.foldl_cons, List.foldl_nil,
    updateStep, dotprod, postVar, List.getD, List.zipWith_cons_cons, List.map_cons,
    List.map_nil, List.zipWith_nil_right]
  norm_num
  field_simp

/-- Claim C3 counterexample: a call with `sigma = -1 ≤ 0` (all shapes valid,
order entry in range) does NOT fail fast leaving the state as supplied — it
runs the loop and mutates `mu` away from the supplied `[0]`.  The source
performs no validation at all and has no error path. -/
theorem claim_C3_cex :
    (varbvsnormupdate_cpp [[0]] (-1) 1 [0] [1] [0] [0] [0] [0] [0]).mu ≠ [0] := by
  rw [invalidSigma_eval (-1) (by norm_num)]
  simp

/-- Claim C3 (amended): `varbvsnormupdate_cpp` validates nothing — for every
`sigma < 0` the call on this instance completes the coordinate update,
raising no error and overwriting `mu` with `[1]`. -/
theorem claim_C3 (sigma : ℝ) (h : sigma < 0) :
    (varbvsnormupdate_cpp [[0]] sigma 1 [0] [1] [0] [0] [0] [0] [0]).mu = [1] :=
  invalidSigma_eval sigma (ne_of_lt h)

theorem claim_C3_witness :
    ((-1 : ℝ) < 0) ∧
      (varbvsnormupdate_cpp [[0]] (-1) 1 [0] [1] [0] [0] [0] [0] [0]).mu = [1] :=
  ⟨by norm_num, claim_C3 (-1) (by norm_num)⟩

/-- Claim C6: under `sigma > 0`, `sa > 0`, `d_j ≥ 0`, every denominator in
the pass is nonzero (`sa * d_j + 1 ≥ 1`, `sigma`, `sa * sigma`, the
posterior variance `s`, and `1 + exp (-x)` inside the sigmoid), and a
degenerate column `d_j = 0` gives `s = sa * sigma` exactly. -/
theorem claim_C6 (sigma sa dj : ℝ) (hs : 0 < sigma) (hsa : 0 < sa) (hd : 0 ≤ dj) :
    1 ≤ sa * dj + 1 ∧ sa * dj + 1 ≠ 0 ∧ sigma ≠ 0 ∧ sa * sigma ≠ 0 ∧
    0 < postVar sigma sa dj ∧ postVar sigma sa dj ≠ 0 ∧
    (∀ x : ℝ, 1 + Real.exp (-x) ≠ 0) ∧
    (dj = 0 → postVar sigma sa dj = sa * sigma) := by
  have h1 : (0:ℝ) < sa * dj + 1 := by nlinarith
  have h2 : 0 < postVar sigma sa dj := div_pos (by positivity) h1
  refine ⟨by nlinarith, ne_of_gt h1, ne_of_gt hs, ne_of_gt (by positivity), h2,
    ne_of_gt h2, fun x => by positivity, fun h0 => ?_⟩
  unfold postVar
  rw [h0]
  norm_num

theorem claim_C6_witness :
    (0:ℝ) < 1 ∧ (0:ℝ) < 1 ∧ (0:ℝ) ≤ 0 ∧
    (1 ≤ (1:ℝ) * 0 + 1 ∧ (1:ℝ) * 0 + 1 ≠ 0 ∧ (1:ℝ) ≠ 0 ∧ (1:ℝ) * 1 ≠ 0 ∧
      0 < postVar 1 1 0 ∧ postVar 1 1 0 ≠ 0 ∧
      (∀ x : ℝ, 1 + Real.exp (-x) ≠ 0) ∧
      ((0:ℝ) = 0 → postVar 1 1 0 = 1 * 1)) :=
  ⟨by norm_num, by norm_num, le_refl 0,
    claim_C6 1 1 0 (by norm_num) (by norm_num) (le_refl 0)⟩

/-- Claim C7: a predictor index that does not appear in the update order
keeps exactly its entry `alpha_k` and `mu_k` through the whole pass. -/
theorem claim_C7 (X : List (List ℝ)) (sigma sa : ℝ) (logodds xy d : List ℝ)
    (order : List ℕ) (k : ℕ) (hk : k ∉ order) : ∀ st : NormState,
    (varbvsnormupdate_loop X sigma sa logodds xy d st order).alpha[k]? = st.alpha[k]? ∧
    (varbvsnormupdate_loop X sigma sa logodds xy d st order).mu[k]? = st.mu[k]? := by
  induction order with
  | nil => intro st; exact ⟨rfl, rfl⟩
  | cons j rest ih =>
    intro st
    have hjk : j ≠ k := fun h => hk (by simp [h])
    have hk2 : k ∉ rest := fun h => hk (List.mem_cons_of_mem _ h)
    obtain ⟨h1, h2⟩ := ih hk2 (updateStep X sigma sa logodds xy d st j)
    refine ⟨h1.trans ?_, h2.trans ?_⟩
    · exact List.getElem?_set_ne hjk
    · exact List.getElem?_set_ne hjk

theorem claim_C7_witness :
    (1 ∉ ([0] : List ℕ)) ∧
    ((varbvsnormupdate_loop [[1]] 1 1 [0, 0] [0, 0] [0, 0] ⟨[1, 2], [3, 4], [0]⟩ [0]).alpha[1]? =
        ([1, 2] : List ℝ)[1]? ∧
      (varbvsnormupdate_loop [[1]] 1 1 [0, 0] [0, 0] [0, 0] ⟨[1, 2], [3, 4], [0]⟩ [0]).mu[1]? =
        ([3, 4] : List ℝ)[1]?) :=
  ⟨by decide, claim_C7 [[1]] 1 1 [0, 0] [0, 0] [0, 0] [0] 1 (by decide) ⟨[1, 2], [3, 4], [0]⟩⟩

/-- Claim C8 counterexample: the claim's existential is false — for EVERY
valid input whose `d` is the diagonal of the Gram matrix (the data-model
meaning of `d`, spec §3), updating the same index twice in one order
`[j, j]` leaves `mu_j` and `alpha_j` identical to their values after a
single update: the `Xr` increment of the first update exactly cancels in
the second update's residual correlation. -/
theorem claim_C8_cex : ¬ ∃ (X : List (List ℝ)) (sigma sa : ℝ)
    (logodds xy d alpha mu Xr : List ℝ) (n p j : ℕ),
    WellFormedInput X sigma sa logodds xy d alpha mu Xr n p [j, j] ∧
    GramDiagonal X d ∧
    ¬ ((varbvsnormupdate_cpp X sigma sa logodds xy d alpha mu Xr [j, j]).mu.getD j 0 =
         (varbvsnormupdate_cpp X sigma sa logodds xy d alpha mu Xr [j]).mu.getD j 0 ∧
       (varbvsnormupdate_cpp X sigma sa logodds xy d alpha mu Xr [j, j]).alpha.getD j 0 =
         (varbvsnormupdate_cpp X sigma sa logodds xy d alpha mu Xr [j]).alpha.getD j 0) := by
  rintro ⟨X, sigma, sa, logodds, xy, d, alpha, mu, Xr, n, p, j, hwf, hgram, hne⟩
  obtain ⟨hσ, hsa, hXlen, hcols, hlo, hxy, hdlen, halpha, hmu, hXr, hidx⟩ := hwf
  have hjp : j < p := hidx j (by simp)
  have hjX : j < X.length := by rw [hXlen]; exact hjp
  have hXj : X.getD j [] ∈ X := by
    rw [List.getD_eq_getElem X [] hjX]
    exact List.getElem_mem _
  have hlen : (X.getD j []).length = (⟨alpha, mu, Xr⟩ : NormState).Xr.length := by
    rw [hcols _ hXj]
    exact hXr.symm
  have key := updateStep_idem X sigma sa logodds xy d ⟨alpha, mu, Xr⟩ j
    (by rw [show (⟨alpha, mu, Xr⟩ : NormState).alpha = alpha from rfl, halpha]; exact hjp)
    (by rw [show (⟨alpha, mu, Xr⟩ : NormState).mu = mu from rfl, hmu]; exact hjp)
    hlen (hgram j hjX)
  have hloop : varbvsnormupdate_loop X sigma sa logodds xy d ⟨alpha, mu, Xr⟩ [j, j] =
      varbvsnormupdate_loop X sigma sa logodds xy d ⟨alpha, mu, Xr⟩ [j] := by
    simp only [varbvsnormupdate_loop, List.foldl_cons, List.foldl_nil]
    exact key
  exact hne (by constructor <;> simp only [varbvsnormupdate_cpp, hloop])

/-- Claim C8 (amended): with `d_j` equal to the sum of squares of column
`j` (true for every data-model-conforming input), the single-coordinate
update is exactly idempotent in real arithmetic: the order `[j, j]`
produces the same state — `mu_j`, `alpha_j` and the local `Xr` included —
as the order `[j]`. -/
theorem claim_C8 (X : List (List ℝ)) (sigma sa : ℝ) (logodds xy d : List ℝ)
    (st : NormState) (j : ℕ) (ha : j < st.alpha.length) (hm : j < st.mu.length)
    (hlen : (X.getD j []).length = st.Xr.length)
    (hd : d.getD j 0 = dotprod (X.getD j []) (X.getD j [])) :
    varbvsnormupdate_loop X sigma sa logodds xy d st [j, j] =
      varbvsnormupdate_loop X sigma sa logodds xy d st [j] := by
  simp only [varbvsnormupdate_loop, List.foldl_cons, List.foldl_nil]
  exact updateStep_idem X sigma sa logodds xy d st j ha hm hlen hd

theorem claim_C8_witness :
    0 < ((⟨[0], [0], [0]⟩ : NormState)).alpha.length ∧
    0 < ((⟨[0], [0], [0]⟩ : NormState)).mu.length ∧
    ((([[2]] : List (List ℝ))).getD 0 []).length = ((⟨[0], [0], [0]⟩ : NormState)).Xr.length ∧
    ([4] : List ℝ).getD 0 0 =
      dotprod (([[2]] : List (List ℝ)).getD 0 []) (([[2]] : List (List ℝ)).getD 0 []) ∧
    varbvsnormupdate_loop [[2]] 1 1 [0] [4] [4] ⟨[0], [0], [0]⟩ [0, 0] =
      varbvsnormupdate_loop [[2]] 1 1 [0] [4] [4] ⟨[0], [0], [0]⟩ [0] :=
  ⟨by simp, by simp, by simp, by norm_num [dotprod],
    claim_C8 [[2]] 1 1 [0] [4] [4] ⟨[0], [0], [0]⟩ 0 (by simp) (by simp) (by simp)
      (by norm_num [dotprod])⟩

/-- Claim C10: in a single-coordinate update with everything but
`logodds_j` fixed, the new `mu` does not depend on `logodds_j` at all, and
the new `alpha_j` is strictly increasing in `logodds_j`. -/
theorem claim_C10 (X : List (List ℝ)) (sigma sa : ℝ) (lo xy d : List ℝ)
    (st : NormState) (j : ℕ) (l1 l2 : ℝ) :
    (updateStep X sigma sa (lo.set j l1) xy d st j).mu =
      (updateStep X sigma sa (lo.set j l2) xy d st j).mu ∧
    (j < lo.length → j < st.alpha.length → l1 < l2 →
      (updateStep X sigma sa (lo.set j l1) xy d st j).alpha.getD j 0 <
        (updateStep X sigma sa (lo.set j l2) xy d st j).alpha.getD j 0) := by
  constructor
  · rfl
  · intro hlo ha hl
    dsimp only [updateStep]
    rw [getD_set_self st.alpha j _ ha, getD_set_self st.alpha j _ ha,
      getD_set_self lo j l1 hlo, getD_set_self lo j l2 hlo]
    exact sigmoidcpp_strictMono (by linarith)

theorem claim_C10_witness :
    0 < ([5] : List ℝ).length ∧
    0 < ((⟨[0], [0], [0]⟩ : NormState)).alpha.length ∧
    (0:ℝ) < 1 ∧
    (updateStep [[1]] 1 1 (([5] : List ℝ).set 0 0) [0] [1] ⟨[0], [0], [0]⟩ 0).alpha.getD 0 0 <
      (updateStep [[1]] 1 1 (([5] : List ℝ).set 0 1) [0] [1] ⟨[0], [0], [0]⟩ 0).alpha.getD 0 0 :=
  ⟨by simp, by simp, by norm_num,
    (claim_C10 [[1]] 1 1 [5] [0] [1] ⟨[0], [0], [0]⟩ 0 0 1).2 (by simp) (by simp) (by norm_num)⟩

end
